import Mathlib

/-!
Verification development for the `qc_engine` subtitle QC package.

The Python module `qc_engine/utils.py` is shallowly embedded below.  Text is
modelled at the character-list level (`Line := List Char`); the file content
handled by the parsers is modelled as the list of its physical lines, which is
the granularity at which all of the Python code operates (the block-splitting
regex `\n?\n\n?\n` separates blocks exactly at runs of two or more newlines,
i.e. at empty physical lines; the only difference of the line-level model is
the bookkeeping of empty blocks, which every consumer skips).  Python integers
are `Nat` where the program only ever produces non-negative values; numeric
profile thresholds are `ℚ` (Python floats are binary, so exotic decimal
thresholds could round differently; no claim here depends on that).  Fallible
code (Python exceptions) returns `Option`.  Presentation-only data (issue
`message` strings, the 2-decimal display rounding of `avgCPS`) is not
branched on anywhere in the code and is left out of the model.
-/

namespace QcEngine

/-- One display/physical line of text, as its character list. -/
abbrev Line := List Char

/-- Python whitespace as used by `str.strip`/`str.split`/`\s` (ASCII range):
space, tab, newline, carriage return, vertical tab, form feed. -/
def isPyWs (c : Char) : Bool :=
  c == ' ' || c == '\t' || c == '\n' || c == '\r' || c == '\x0b' || c == '\x0c'

/-- Python `str.lstrip()`. -/
def lstrip (l : Line) : Line := l.dropWhile isPyWs

/-- Python `str.rstrip()`. -/
def rstrip (l : Line) : Line := (l.reverse.dropWhile isPyWs).reverse

/-- Python `str.strip()`. -/
def strip (l : Line) : Line := rstrip (lstrip l)

/-- Python `str.split(sep)` semantics for a one-element separator, generalized
over a separator predicate: keeps empty pieces, `[] ↦ [[]]`. -/
def pySplitP (p : α → Bool) : List α → List (List α)
  | [] => [[]]
  | a :: r =>
    if p a then [] :: pySplitP p r
    else
      match pySplitP p r with
      | h :: t => (a :: h) :: t
      | [] => [[a]]

/-- Python `str.split(sep)` / splitting a list of lines at separator lines. -/
def pySplit [DecidableEq α] (sep : α) (l : List α) : List (List α) :=
  pySplitP (fun a => decide (a = sep)) l

/-- Python `sep.join(pieces)`. -/
def joinSep (sep : α) : List (List α) → List α
  | [] => []
  | [x] => x
  | x :: xs => x ++ sep :: joinSep sep xs

/-- Python `str.split()` with no argument: split on whitespace runs, dropping
empty pieces. -/
def pySplitWs (l : Line) : List Line :=
  (pySplitP isPyWs l).filter (fun w => decide (w ≠ []))

/-- Python `timing.split('-->')`: split on the (multi-character) arrow
separator, non-overlapping, left to right. -/
def splitArrow : Line → List Line
  | [] => [[]]
  | [c] => [[c]]
  | [c, c2] => [[c, c2]]
  | c :: c2 :: c3 :: rest =>
    if c = '-' ∧ c2 = '-' ∧ c3 = '>' then [] :: splitArrow rest
    else
      match splitArrow (c2 :: c3 :: rest) with
      | h :: t => (c :: h) :: t
      | [] => [[c]]

/-- Whether the literal three-dot sequence `...` occurs in the text
(Python `'...' in s`). -/
def hasTriple : Line → Bool
  | c :: c2 :: c3 :: rest =>
    (decide (c = '.') && decide (c2 = '.') && decide (c3 = '.')) || hasTriple (c2 :: c3 :: rest)
  | _ => false

/-- Python `s.replace('...', d)`: replace each non-overlapping occurrence of
three consecutive dots, scanning left to right. -/
def pyReplace3 (d : Line) : Line → Line
  | [] => []
  | [c] => [c]
  | [c, c2] => [c, c2]
  | c :: c2 :: c3 :: rest =>
    if c = '.' ∧ c2 = '.' ∧ c3 = '.' then d ++ pyReplace3 d rest
    else c :: pyReplace3 d (c2 :: c3 :: rest)

/-- Does this text consist of whitespace followed by `…`?  (Used to decide
whether a leading whitespace run is consumed by `re.sub(r"\s*…\s*", '…')`.) -/
def wsThenEll : Line → Bool
  | [] => false
  | c :: r => if c = '…' then true else if isPyWs c then wsThenEll r else false

/-- Worker for `re.sub(r"\s*…\s*", '…', l)`.  The flag records whether the
scanner sits right after a replaced match, i.e. inside the trailing `\s*`
being consumed; a whitespace character is also dropped when the text after it
is whitespace leading to `…` (the leading `\s*` of the next match). -/
def subEllGo : Bool → Line → Line
  | _, [] => []
  | skip, c :: r =>
    if c = '…' then '…' :: subEllGo true r
    else if isPyWs c then
      (if skip then subEllGo true r
       else if wsThenEll r then subEllGo false r
       else c :: subEllGo false r)
    else c :: subEllGo false r

/-- Python `re.sub(r"\s*…\s*", '…', l)`: delete any whitespace run adjacent to
an `…` character. -/
def subEll (l : Line) : Line := subEllGo false l

/-- Proof helper: is the first character (if any) not whitespace? -/
def headNotWs : Line → Bool
  | [] => true
  | c :: _ => !isPyWs c

/-- Proof helper: no whitespace adjacent to an `…` anywhere — the strings on
which `re.sub(r"\s*…\s*", '…')` is the identity. -/
def cleanEll : Line → Bool
  | [] => true
  | c :: r =>
    ((!decide (c = '…')) || headNotWs r) && ((!isPyWs c) || !wsThenEll r) && cleanEll r

/-- Worker for `re.sub(r"\s+", ' ', raw)`; the flag records whether the
scanner is inside a whitespace run whose single `' '` was already emitted. -/
def collapseWsGo : Bool → Line → Line
  | _, [] => []
  | inRun, c :: r =>
    if isPyWs c then
      (if inRun then collapseWsGo true r else ' ' :: collapseWsGo true r)
    else c :: collapseWsGo false r

/-- Python `re.sub(r"\s+", ' ', raw)`: collapse each whitespace run to one
space (step used by `parse_ttml`). -/
def collapseWs (l : Line) : Line := collapseWsGo false l

/-- The decimal digit character for `n % 10`-style values. -/
def digitChar (n : Nat) : Char :=
  match n with
  | 0 => '0' | 1 => '1' | 2 => '2' | 3 => '3' | 4 => '4'
  | 5 => '5' | 6 => '6' | 7 => '7' | 8 => '8' | _ => '9'

/-- Numeric value of a decimal digit character. -/
def digitVal (c : Char) : Nat := c.toNat - 48

/-- Fuel-indexed worker for `natDigits`; `fuel ≥ n + 1` always suffices since
the argument at least halves each step. -/
def natDigitsGo : Nat → Nat → Line
  | 0, _ => []
  | fuel + 1, n =>
    if n < 10 then [digitChar n]
    else natDigitsGo fuel (n / 10) ++ [digitChar (n % 10)]

/-- Decimal digits of `n`, most significant first (Python `str(n)` for
non-negative `n`). -/
def natDigits (n : Nat) : Line := natDigitsGo (n + 1) n

/-- Value of a string of decimal digits (Python `int(s)` on an all-digit
string). -/
def digitsVal (l : Line) : Nat := l.foldl (fun a c => 10 * a + digitVal c) 0

/-- Does the regex `^\d+$` match this string (non-empty, all digits)?  (`\d`
is modelled as the ASCII digits; the serializer only ever emits those.) -/
def isDigitsLine (l : Line) : Bool := decide (l ≠ []) && l.all Char.isDigit

/-- Python `int(s)` on text expected to be decimal digits; `none` models the
`ValueError` raised on any other shape. -/
def parseNatDigits (l : Line) : Option Nat :=
  if isDigitsLine l then some (digitsVal l) else none

/-- Left-pad with zeros to width `w` (Python `f"{n:0wd}"`). -/
def padZeros (w : Nat) (l : Line) : Line := List.replicate (w - l.length) '0' ++ l

/-- Python `int(x)` on a rational: truncation toward zero. -/
def pyTrunc (q : ℚ) : Int := if q < 0 then q.ceil else q.floor

/-- The unified cue model (`class Subtitle`). -/
structure Subtitle where
  index : Nat
  start_ms : Nat
  end_ms : Nat
  lines : List Line
deriving DecidableEq

/-- Python property `text`: lines joined by a line break. -/
def Subtitle.text (s : Subtitle) : Line := joinSep '\n' s.lines

/-- Python property `duration_ms = max(0, end_ms - start_ms)`; truncated `Nat`
subtraction is exactly that. -/
def Subtitle.duration_ms (s : Subtitle) : Nat := s.end_ms - s.start_ms

/-- The `ellipsis` profile entry, a JSON object.  `extraFields` records whether
the object carries keys other than the two recognized ones; it participates
only in the object's truthiness (`if ell:`). -/
structure EllipsisPolicy where
  char : Option Line
  noSpacesWithinSentence : Option Bool
  extraFields : Bool
deriving DecidableEq

/-- Python truthiness of the policy dict: non-empty. -/
def EllipsisPolicy.truthy (e : EllipsisPolicy) : Bool :=
  e.char.isSome || e.noSpacesWithinSentence.isSome || e.extraFields

/-- A QC profile: every option is optional (`profile.get(...)`). -/
structure Profile where
  minDurationSec : Option ℚ
  maxDurationSec : Option ℚ
  maxLines : Option Nat
  maxCpl : Option Nat
  minCpl : Option Nat
  targetCps : Option ℚ
  ellipsis : Option EllipsisPolicy
  dualSpeakerDash : Option Bool
deriving DecidableEq

/-- A rule violation.  The presentation `message` string is not modelled. -/
structure Issue where
  itype : String
  severity : String
  index : Nat
  time : Nat
  line : Option Nat
deriving DecidableEq

/-- Aggregate metrics.  `avgCPS` is kept as the exact rational; Python rounds
it to 2 decimals (in float arithmetic) purely for display. -/
structure Metrics where
  avgCPS : ℚ
  count : Nat
  overCPS : Nat
deriving DecidableEq

/-! ## TTML text handling (`parse_ttml`, lines 150-161)

Only the cue-text post-processing is modelled: `raw` is the concatenation of
the `p` element's descendant text nodes (`''.join(p.itertext())`); the code
then collapses whitespace runs and splits on embedded newlines. -/

/-- `raw = re.sub(r"\s+", ' ', raw).strip()` followed by
`raw.split('\n') if '\n' in raw else [raw]`. -/
def ttmlTextLines (raw : Line) : List Line :=
  let r := strip (collapseWs raw)
  if '\n' ∈ r then pySplit '\n' r else [r]

/-! ## VTT parser (`parse_vtt`, lines 60-103) -/

/-- Does the text contain the `-->` separator? -/
def hasArrow (l : Line) : Bool := decide ((splitArrow l).length ≥ 2)

/-- The nested `parse_vtt_ts`: `ts.split()[0]`, split on `:` into exactly
three groups (`hh, mm, ss_ms = ts.split(':')` raises otherwise — `none`),
optional `.mmm` sub-second part padded/truncated to 3 digits. -/
def parseVttTs (ts : Line) : Option Nat :=
  match pySplitWs ts with
  | [] => none
  | t :: _ =>
    match pySplit ':' t with
    | [hh, mm, ssms] =>
      if '.' ∈ ssms then
        match pySplit '.' ssms with
        | [ss, ms] =>
          (parseNatDigits hh).bind fun h =>
          (parseNatDigits mm).bind fun m =>
          (parseNatDigits ss).bind fun s =>
          (parseNatDigits ((ms ++ ['0', '0', '0']).take 3)).map fun msv =>
            ((h * 60 + m) * 60 + s) * 1000 + msv
        | _ => none
      else
        (parseNatDigits hh).bind fun h =>
        (parseNatDigits mm).bind fun m =>
        (parseNatDigits ssms).map fun s =>
          ((h * 60 + m) * 60 + s) * 1000
    | _ => none

/-- One VTT block: `none` = exception escapes, `some none` = block yields no
cue, `some (some _)` = parsed timing and content. -/
def parseVttBlock (b : List Line) : Option (Option (Nat × Nat × List Line)) :=
  let lns := b.filter (fun l => decide (strip l ≠ []))
  match lns with
  | [] => some none
  | l0 :: rest0 =>
    let pick : Option (Nat × Line) :=
      if hasArrow l0 then some (0, l0)
      else
        match rest0 with
        | l1 :: _ => if hasArrow l1 then some (1, l1) else none
        | [] => none
    match pick with
    | none => some none
    | some (i0, timing) =>
      match splitArrow timing with
      | [x, y] =>
        match parseVttTs (strip x), parseVttTs (strip y) with
        | some st, some en => some (some (st, en, lns.drop (i0 + 1)))
        | _, _ => none
      | _ => none

/-- Whether a line is a `WEBVTT` header line (`l.strip().startswith('WEBVTT')`). -/
def isWebvttHeader (l : Line) : Bool := "WEBVTT".toList.isPrefixOf (strip l)

/-- Block loop of `parse_vtt` with the running cue index. -/
def vttGo : List (List Line) → Nat → List Subtitle → Option (List Subtitle)
  | [], _, acc => some acc.reverse
  | b :: bs, idx, acc =>
    match parseVttBlock b with
    | none => none
    | some none => vttGo bs idx acc
    | some (some (st, en, content)) =>
      vttGo bs (idx + 1) ({ index := idx + 1, start_ms := st, end_ms := en, lines := content } :: acc)

/-- `parse_vtt`: drop `WEBVTT` header lines, split into blank-line-delimited
blocks, parse each; `none` models the `ValueError`/`IndexError` escaping. -/
def parse_vtt (input : List Line) : Option (List Subtitle) :=
  vttGo (pySplit ([] : Line) (input.filter (fun l => !isWebvttHeader l))) 0 []

/-! ## SRT parser and serializer (lines 25-57 and 331-346) -/

/-- `parse_timestamp_srt`: match `^(\d+):(\d+):(\d+),(\d+)$` on the stripped
string; `none` models the raised `ValueError`. -/
def parse_timestamp_srt (ts : Line) : Option Nat :=
  match pySplit ':' (strip ts) with
  | [a, b, rest] =>
    match pySplit ',' rest with
    | [c, d] =>
      (parseNatDigits a).bind fun h =>
      (parseNatDigits b).bind fun m =>
      (parseNatDigits c).bind fun s =>
      (parseNatDigits d).map fun ms =>
        ((h * 60 + m) * 60 + s) * 1000 + ms
    | _ => none
  | _ => none

/-- One SRT block (`parse_srt` loop body); same `Option (Option _)` convention
as `parseVttBlock`. -/
def parseSrtBlock (b : List Line) : Option (Option (Nat × Nat × List Line)) :=
  match b.filter (fun l => decide (strip l ≠ [])) with
  | l0 :: l1 :: rest =>
    let tc : Line × List Line :=
      if isDigitsLine (strip l0) then (l1, rest) else (l0, l1 :: rest)
    match splitArrow tc.1 with
    | [_] => some none
    | [x, y] =>
      match parse_timestamp_srt x with
      | none => none
      | some st =>
        match (pySplitWs (strip y)).head? with
        | none => none
        | some t2h =>
          match parse_timestamp_srt t2h with
          | none => none
          | some en => some (some (st, en, tc.2))
    | _ => none
  | _ => some none

/-- Block loop of `parse_srt` with the running cue index. -/
def srtGo : List (List Line) → Nat → List Subtitle → Option (List Subtitle)
  | [], _, acc => some acc.reverse
  | b :: bs, idx, acc =>
    match parseSrtBlock b with
    | none => none
    | some none => srtGo bs idx acc
    | some (some (st, en, content)) =>
      srtGo bs (idx + 1) ({ index := idx + 1, start_ms := st, end_ms := en, lines := content } :: acc)

/-- `parse_srt` on the physical lines of the file. -/
def parse_srt (input : List Line) : Option (List Subtitle) :=
  srtGo (pySplit ([] : Line) input) 0 []

/-- The `fmt` helper of `serialize_srt`: `HH:MM:SS,mmm` with zero padding. -/
def fmtTs (ms : Nat) : Line :=
  let s := ms / 1000
  let ms2 := ms % 1000
  let h := s / 3600
  let m := (s % 3600) / 60
  let ss := s % 60
  padZeros 2 (natDigits h) ++ ':' :: padZeros 2 (natDigits m) ++
    ':' :: padZeros 2 (natDigits ss) ++ ',' :: padZeros 3 (natDigits ms2)

/-- The lines `serialize_srt` emits for one cue: index, timing, display
lines, trailing blank separator. -/
def serializeCue (s : Subtitle) : List Line :=
  natDigits s.index ::
    (fmtTs s.start_ms ++ ' ' :: '-' :: '-' :: '>' :: ' ' :: fmtTs s.end_ms) ::
    (s.lines ++ [[]])

/-- `serialize_srt`, as the list of physical lines of the rendered file. -/
def serialize_srt (subs : List Subtitle) : List Line :=
  (subs.map serializeCue).flatten

/-! ## QC rule engine (`run_qc`, lines 207-269)

Each Python `profile.get(key)` guard `if v and cond(v): ...` is rendered as
`qTruthy… field ∧ cond (field.getD 0)`: for `none` (key absent) and `some 0`
(falsy value) the guard is false either way, and under a true guard
`field.getD 0` is exactly the Python value. -/

/-- Truthiness of an optional numeric profile entry (`None` and `0` falsy). -/
def qTruthyQ (o : Option ℚ) : Bool := decide (o.getD 0 ≠ 0)

/-- Truthiness of an optional integer profile entry. -/
def qTruthyN (o : Option Nat) : Bool := decide (o.getD 0 ≠ 0)

/-- `line.strip().startswith('-')`. -/
def startsDash (l : Line) : Bool :=
  match strip l with
  | '-' :: _ => true
  | _ => false

/-- The `needs` list of the dual-speaker-dash check: one `True` appended per
line that does not start (after stripping) with a hyphen. -/
def dashNeeds : List Line → List Bool
  | [] => []
  | l :: r => if startsDash l then dashNeeds r else true :: dashNeeds r

/-- Duration-bound issues for one cue. -/
def durationIssues (p : Profile) (s : Subtitle) : List Issue :=
  (if qTruthyQ p.minDurationSec ∧ ((s.duration_ms : ℚ) < p.minDurationSec.getD 0 * 1000)
   then [⟨"duration-too-short", "warning", s.index, s.start_ms, none⟩] else []) ++
  (if qTruthyQ p.maxDurationSec ∧ ((s.duration_ms : ℚ) > p.maxDurationSec.getD 0 * 1000)
   then [⟨"duration-too-long", "warning", s.index, s.start_ms, none⟩] else [])

/-- Line-count issue for one cue (`maxLines` defaults to 2). -/
def lineCountIssues (p : Profile) (s : Subtitle) : List Issue :=
  if s.lines.length > p.maxLines.getD 2
  then [⟨"too-many-lines", "error", s.index, s.start_ms, none⟩] else []

/-- CPL issues for one line (1-based index `li`). -/
def cplLineIssues (p : Profile) (s : Subtitle) (li : Nat) (line : Line) : List Issue :=
  (if qTruthyN p.maxCpl ∧ line.length > p.maxCpl.getD 0
   then [⟨"cpl-exceeded", "warning", s.index, s.start_ms, some li⟩] else []) ++
  (if qTruthyN p.minCpl ∧ line.length < p.minCpl.getD 0 ∧ s.lines.length = 2
   then [⟨"cpl-low", "info", s.index, s.start_ms, some li⟩] else [])

/-- CPL issues for one cue. -/
def cplIssues (p : Profile) (s : Subtitle) : List Issue :=
  (s.lines.enum.map (fun pr => cplLineIssues p s (pr.1 + 1) pr.2)).flatten

/-- Does the CPS rule fire for this cue?  `cps` is `len(text with newlines
replaced by spaces) / (duration_ms/1000)`, `+inf` for non-positive duration
(which for `Nat` durations means `0`); the comparison is modelled in exact
rational arithmetic where Python uses floats. -/
def cpsFires (p : Profile) (s : Subtitle) : Bool :=
  qTruthyQ p.targetCps &&
    (decide (s.duration_ms = 0) ||
     decide ((((s.text.map fun c => if c = '\n' then ' ' else c).length : ℚ) /
       ((s.duration_ms : ℚ) / 1000)) > p.targetCps.getD 0))

/-- CPS issue for one cue. -/
def cpsIssues (p : Profile) (s : Subtitle) : List Issue :=
  if cpsFires p s then [⟨"cps-high", "warning", s.index, s.start_ms, none⟩] else []

/-- Ellipsis-convention issue: `ell = profile.get('ellipsis', {})`, guarded by
the dict's truthiness, then `'...' in s.text`. -/
def ellipsisIssues (p : Profile) (s : Subtitle) : List Issue :=
  match p.ellipsis with
  | none => []
  | some pol =>
    if pol.truthy then
      if hasTriple s.text
      then [⟨"ellipsis-three-dots", "info", s.index, s.start_ms, none⟩] else []
    else []

/-- Dual-speaker-dash issue, exactly as coded: build `needs` and test
`all(needs)`. -/
def dashIssues (p : Profile) (s : Subtitle) : List Issue :=
  if p.dualSpeakerDash.getD false ∧ s.lines.length = 2 then
    if (dashNeeds s.lines).all (fun b => b)
    then [⟨"missing-dual-speaker-dash", "info", s.index, s.start_ms, none⟩] else []
  else []

/-- The loop body of `run_qc` for one cue.  No statement in the Python loop
assigns to the cue, so the state-passing translation returns it unchanged
alongside the issues it appends. -/
def qcCue (p : Profile) (s : Subtitle) : Subtitle × List Issue :=
  (s, durationIssues p s ++ lineCountIssues p s ++ cplIssues p s ++
      cpsIssues p s ++ ellipsisIssues p s ++ dashIssues p s)

/-- Result of `run_qc`: the document as left by the call, the issues, the
metrics. -/
structure QCResult where
  doc : List Subtitle
  issues : List Issue
  metrics : Metrics
deriving DecidableEq

/-- `run_qc(subs, profile)`. -/
def run_qc (subs : List Subtitle) (p : Profile) : QCResult :=
  let pairs := subs.map (qcCue p)
  let totalChars := (subs.map fun s => s.text.length).sum
  let totalDuration := (subs.map Subtitle.duration_ms).sum
  { doc := pairs.map Prod.fst
    issues := (pairs.map Prod.snd).flatten
    metrics :=
      { avgCPS := if totalDuration > 0 then (totalChars : ℚ) / ((totalDuration : ℚ) / 1000) else 0
        count := subs.length
        overCPS := (subs.filter (cpsFires p)).length } }

/-! ## Safe-fix engine (`safe_fixes`, lines 272-328) -/

/-- Duration clamp to the minimum (`duration-min`).  `pyTrunc … |>.toNat`
models `int(min_d*1000)`; the guard makes it non-negative whenever it is
evaluated with a positive threshold. -/
def clampMinStep (p : Profile) (s : Subtitle) : Subtitle × List String :=
  if qTruthyQ p.minDurationSec ∧ ((s.duration_ms : ℚ) < p.minDurationSec.getD 0 * 1000)
  then ({ s with end_ms := s.start_ms + (pyTrunc (p.minDurationSec.getD 0 * 1000)).toNat },
        ["duration-min"])
  else (s, [])

/-- Duration clamp to the maximum (`duration-max`). -/
def clampMaxStep (p : Profile) (s : Subtitle) : Subtitle × List String :=
  if qTruthyQ p.maxDurationSec ∧ ((s.duration_ms : ℚ) > p.maxDurationSec.getD 0 * 1000)
  then ({ s with end_ms := s.start_ms + (pyTrunc (p.maxDurationSec.getD 0 * 1000)).toNat },
        ["duration-max"])
  else (s, [])

/-- Python `ln.rfind(' ', 0, m)`: highest index `< m` holding a space, `none`
for `-1`. -/
def rfindSpace (l : Line) (m : Nat) : Option Nat :=
  ((List.range (min m l.length)).filter (fun i => decide (l.get? i = some ' '))).getLast?

/-- The `while len(ln) > max_cpl` wrapping loop, with explicit fuel (each
iteration strictly shrinks the remaining line when `m ≥ 1`, so
`fuel = ln.length` never runs out at the call site). -/
def wrapGo (fuel : Nat) (m : Nat) (ln : Line) : List Line :=
  if ln.length > m then
    match fuel with
    | 0 => [ln]
    | f + 1 =>
      let cut := (rfindSpace ln m).getD m
      rstrip (ln.take cut) :: wrapGo f m (lstrip (ln.drop cut))
  else [ln]

/-- Wrapped segments produced from one line. -/
def wrapLine (m : Nat) (ln : Line) : List Line := wrapGo ln.length m ln

/-- The CPL-reflow body: wrap every line, then collapse to at most two lines
by joining the tail segments with single spaces. -/
def cplReflow (m : Nat) (lines : List Line) : List Line :=
  let new := (lines.map (wrapLine m)).flatten
  if new.length > 2 then [new.headI, joinSep ' ' new.tail] else new

/-- CPL-reflow step of `safe_fixes`; tag `wrap-cpl` is appended whenever
`max_cpl` is truthy, whether or not the lines changed. -/
def cplStep (p : Profile) (s : Subtitle) : Subtitle × List String :=
  if qTruthyN p.maxCpl
  then ({ s with lines := cplReflow (p.maxCpl.getD 0) s.lines }, ["wrap-cpl"])
  else (s, [])

/-- The ellipsis text transform: replace `...` by the configured character
(default `…`), then optionally delete whitespace around `…`. -/
def ellFixText (pol : EllipsisPolicy) (t : Line) : Line :=
  let desired := pol.char.getD ['…']
  let t2 := pyReplace3 desired t
  if pol.noSpacesWithinSentence.getD false then subEll t2 else t2

/-- Ellipsis-normalization step of `safe_fixes`; rebuilds `lines` and tags
`ellipsis` only when the text actually changed. -/
def ellipsisStep (p : Profile) (s : Subtitle) : Subtitle × List String :=
  match p.ellipsis with
  | none => (s, [])
  | some pol =>
    if pol.truthy then
      let t2 := ellFixText pol s.text
      if t2 ≠ s.text then ({ s with lines := pySplit '\n' t2 }, ["ellipsis"]) else (s, [])
    else (s, [])

/-- Dual-speaker-dash insertion step; tag `dual-dash` is appended whenever the
guard holds, whether or not a line was rewritten. -/
def dashStep (p : Profile) (s : Subtitle) : Subtitle × List String :=
  if p.dualSpeakerDash.getD false ∧ s.lines.length = 2 then
    match s.lines with
    | [l0, l1] =>
      let l0' := if startsDash l0 then l0 else '-' :: ' ' :: lstrip l0
      let l1' := if startsDash l1 then l1 else '-' :: ' ' :: lstrip l1
      ({ s with lines := [l0', l1'] }, ["dual-dash"])
    | _ => (s, [])
  else (s, [])

/-- The `safe_fixes` loop body for one cue: the five steps in program order,
threading the mutated cue, collecting the `ch` tag list. -/
def fixCue (p : Profile) (s : Subtitle) : Subtitle × List String :=
  let r1 := clampMinStep p s
  let r2 := clampMaxStep p r1.1
  let r3 := cplStep p r2.1
  let r4 := ellipsisStep p r3.1
  let r5 := dashStep p r4.1
  (r5.1, r1.2 ++ r2.2 ++ r3.2 ++ r4.2 ++ r5.2)

/-- `safe_fixes(subs, profile)`: the mutated document and the change log
(`(s.index, ch)` for every cue whose `ch` is non-empty). -/
def safe_fixes (subs : List Subtitle) (p : Profile) : List Subtitle × List (Nat × List String) :=
  let pairs := subs.map (fixCue p)
  (pairs.map Prod.fst,
   (pairs.filter (fun pr => decide (pr.2 ≠ []))).map (fun pr => (pr.1.index, pr.2)))

/-! ## Profile normalization used to state the falsy-option claim -/

/-- Replace an explicit `0` by absence. -/
def zeroToNoneQ (o : Option ℚ) : Option ℚ :=
  match o with
  | some q => if q = 0 then none else some q
  | none => none

/-- Replace an explicit `0` by absence. -/
def zeroToNoneN (o : Option Nat) : Option Nat :=
  match o with
  | some n => if n = 0 then none else some n
  | none => none

/-- Normalize the five numeric options that the engines guard by truthiness. -/
def normalizeProfile (p : Profile) : Profile :=
  { p with
    minDurationSec := zeroToNoneQ p.minDurationSec
    maxDurationSec := zeroToNoneQ p.maxDurationSec
    minCpl := zeroToNoneN p.minCpl
    maxCpl := zeroToNoneN p.maxCpl
    targetCps := zeroToNoneQ p.targetCps }

/-! ## Renumbering helper (used to state the serializer round trip) -/

/-- Sequential 1-based reindexing starting above `n`, keeping all other cue
fields (what the SRT parser does to the cues it re-reads). -/
def renum (n : Nat) : List Subtitle → List Subtitle
  | [] => []
  | s :: ss => { s with index := n + 1 } :: renum (n + 1) ss

/-- The non-separator lines `serialize_srt` emits for one cue. -/
def blockOf (s : Subtitle) : List Line :=
  natDigits s.index ::
    (fmtTs s.start_ms ++ ' ' :: '-' :: '-' :: '>' :: ' ' :: fmtTs s.end_ms) :: s.lines

/-! ## Concrete fixtures for counterexamples and witnesses -/

/-- A profile with every option absent. -/
def emptyProfile : Profile := ⟨none, none, none, none, none, none, none, none⟩

/-- An `ellipsis` policy object with no fields at all (`{}` in the JSON). -/
def emptyPolicy : EllipsisPolicy := ⟨none, none, false⟩

/-- An `ellipsis` policy whose only field is the default character. -/
def plainEllPolicy : EllipsisPolicy := ⟨some ['…'], none, false⟩

/-- An `ellipsis` policy whose configured character is itself made of dots. -/
def dottedPolicy : EllipsisPolicy := ⟨some "....".toList, none, false⟩

/-- An `ellipsis` policy with the default character and whitespace collapsing. -/
def noSpacesPolicy : EllipsisPolicy := ⟨none, some true, false⟩

/-- Profile enabling only the dual-speaker-dash rule. -/
def dashProfile : Profile := { emptyProfile with dualSpeakerDash := some true }

/-- Profile whose `ellipsis` policy is the empty object. -/
def emptyEllProfile : Profile := { emptyProfile with ellipsis := some emptyPolicy }

/-- Profile whose `ellipsis` policy is `plainEllPolicy`. -/
def plainEllProfile : Profile := { emptyProfile with ellipsis := some plainEllPolicy }

/-- Profile whose `ellipsis` policy is `dottedPolicy`. -/
def dottedProfile : Profile := { emptyProfile with ellipsis := some dottedPolicy }

/-- Profile whose `ellipsis` policy is `noSpacesPolicy`. -/
def noSpacesProfile : Profile := { emptyProfile with ellipsis := some noSpacesPolicy }

/-- Profile enabling only `maxCpl = 42`. -/
def cplProfile : Profile := { emptyProfile with maxCpl := some 42 }

/-- Profile whose only entry is the falsy `minDurationSec = 0`. -/
def zeroMinDurProfile : Profile := { emptyProfile with minDurationSec := some 0 }

/-- A two-line cue in which both lines already start with a hyphen. -/
def dashedCue : Subtitle := ⟨1, 0, 1000, ["- Hej!".toList, "- Tjena!".toList]⟩

/-- A one-line cue whose text contains the literal `...`. -/
def dotsCue : Subtitle := ⟨1, 0, 1000, ["Hej...".toList]⟩

/-- A cue whose text is exactly `...`. -/
def tripleDotsCue : Subtitle := ⟨1, 0, 1000, ["...".toList]⟩

/-- A short cue already inside every limit. -/
def shortCue : Subtitle := ⟨1, 0, 1000, ["Hi".toList]⟩

/-- A zero-duration cue. -/
def zeroDurCue : Subtitle := ⟨1, 500, 500, ["Hej".toList]⟩

/-- A cue with spaced dots, for the ellipsis-fix witness. -/
def spacedDotsCue : Subtitle := ⟨1, 0, 1000, ["Vi ses ...".toList]⟩

/-- A long single-line cue, for the reflow witness. -/
def longCue : Subtitle :=
  ⟨1, 1000, 2000, ["A very long line exceeding forty characters is here.".toList]⟩

/-- Physical lines of a minimal SRT file. -/
def demoSrtLines : List Line :=
  ["1".toList, "00:00:01,000 --> 00:00:02,000".toList, "Hej".toList]

/-- The cue `parse_srt` produces from `demoSrtLines`. -/
def demoCue : Subtitle := ⟨1, 1000, 2000, ["Hej".toList]⟩

/-- Physical lines of a minimal VTT file whose timestamps omit the hours. -/
def vttNoHoursLines : List Line :=
  ["WEBVTT".toList, [], "00:01.000 --> 00:04.000".toList, "Hi".toList]

/-! # Theorems -/

/-- Claim C8: for every document and profile, `run_qc` leaves the document
unchanged — every cue's `index`, `start_ms`, `end_ms`, and `lines` are
identical before and after the call.  The loop body reads cue fields but
never assigns to them, so the state-passing translation `qcCue` returns each
cue as it was. -/
theorem run_qc_preserves_document (subs : List Subtitle) (p : Profile) :
    (run_qc subs p).doc = subs := by
  have h : ∀ l : List Subtitle, (l.map (qcCue p)).map Prod.fst = l := by
    intro l
    induction l with
    | nil => rfl
    | cons s ss ih => simp [qcCue, ih]
  exact h subs

/-- Claim C1, evaluated at the failing input: a 2-line cue in which BOTH
lines already start with a hyphen still receives a
`missing-dual-speaker-dash` issue, because the `needs` list only ever holds
`True` entries and `all([])` is vacuously true — contradicting the claim
that the issue is emitted iff both lines lack the hyphen. -/
theorem qc_dash_fires_even_when_both_dashed :
    (run_qc [dashedCue] dashProfile).issues =
      [⟨"missing-dual-speaker-dash", "info", 1, 0, none⟩] := by
  decide

/-- Claim C2 counterexample: a cue left completely unchanged by every fix
(its single line is far inside `maxCpl = 42`) still produces a change
record, tagged `wrap-cpl`, because that tag is appended whenever `maxCpl`
is truthy. -/
theorem fix_record_without_mutation :
    (fixCue cplProfile shortCue).1 = shortCue ∧
    (safe_fixes [shortCue] cplProfile).2 = [(1, ["wrap-cpl"])] := by
  decide

/-- Claim C4, evaluated at the failing input: a VTT timing line whose
timestamps have no hours component makes the nested timestamp parser fail
(`hh, mm, ss_ms = ts.split(':')` cannot unpack two pieces into three), so
the whole `parse_vtt` call errors instead of producing a cue. -/
theorem vtt_no_hours_timestamp_fails :
    parseVttTs "00:01.000".toList = none ∧ parse_vtt vttNoHoursLines = none := by
  decide

/-- Claim C5 counterexample: with an `ellipsis` policy object that has no
fields the check is silent even though the cue text contains `...` —
`profile.get('ellipsis', {})` followed by `if ell:` treats the empty dict
as falsy, so "defines an ellipsis policy at all" is not sufficient. -/
theorem qc_empty_ellipsis_policy_is_silent :
    (run_qc [dotsCue] emptyEllProfile).issues = [] := by
  decide

/-- Claim C9 counterexample: with a configured ellipsis character that itself
contains dots (`'....'`), applying the ellipsis fix twice to the text `...`
gives `.....`, while applying it once gives `....` — the fix is not
idempotent for every profile that defines an ellipsis policy. -/
theorem ellipsis_fix_twice_differs_for_dotted_char :
    (ellipsisStep dottedProfile (ellipsisStep dottedProfile tripleDotsCue).1).1.text ≠
      (ellipsisStep dottedProfile tripleDotsCue).1.text := by
  decide

/-! ## Falsy profile options (claim C10) -/

theorem getD_zeroToNoneQ (o : Option ℚ) : (zeroToNoneQ o).getD 0 = o.getD 0 := by
  cases o with
  | none => rfl
  | some q =>
    by_cases h : q = 0 <;> simp [zeroToNoneQ, h]

theorem getD_zeroToNoneN (o : Option Nat) : (zeroToNoneN o).getD 0 = o.getD 0 := by
  cases o with
  | none => rfl
  | some n =>
    by_cases h : n = 0 <;> simp [zeroToNoneN, h]

theorem cpsFires_normalize (p : Profile) (s : Subtitle) :
    cpsFires (normalizeProfile p) s = cpsFires p s := by
  simp [cpsFires, qTruthyQ, normalizeProfile, getD_zeroToNoneQ]

theorem qcCue_normalize (p : Profile) (s : Subtitle) :
    qcCue (normalizeProfile p) s = qcCue p s := by
  simp [qcCue, durationIssues, lineCountIssues, cplIssues, cplLineIssues, cpsIssues,
    cpsFires, ellipsisIssues, dashIssues, qTruthyQ, qTruthyN, normalizeProfile,
    getD_zeroToNoneQ, getD_zeroToNoneN]

theorem fixCue_normalize (p : Profile) (s : Subtitle) :
    fixCue (normalizeProfile p) s = fixCue p s := by
  simp [fixCue, clampMinStep, clampMaxStep, cplStep, ellipsisStep, dashStep,
    qTruthyQ, qTruthyN, normalizeProfile, getD_zeroToNoneQ, getD_zeroToNoneN]

/-- Claim C10: a numeric profile option set to `0` behaves exactly as if the
option were absent — normalizing `some 0` to `none` on `minDurationSec`,
`maxDurationSec`, `minCpl`, `maxCpl` and `targetCps` changes neither the
`run_qc` output nor the `safe_fixes` output; in particular (third conjunct) a
zero-duration cue under `minDurationSec = 0` yields no issue at all. -/
theorem zero_options_behave_as_absent (subs : List Subtitle) (p : Profile) :
    run_qc subs (normalizeProfile p) = run_qc subs p ∧
    safe_fixes subs (normalizeProfile p) = safe_fixes subs p ∧
    (run_qc [zeroDurCue] zeroMinDurProfile).issues = [] := by
  refine ⟨?_, ?_, by decide⟩
  · unfold run_qc
    rw [funext (qcCue_normalize p), funext (cpsFires_normalize p)]
  · unfold safe_fixes
    rw [funext (fixCue_normalize p)]

/-! ## TTML line handling (claim C3) -/

theorem collapseWsGo_no_newline (l : Line) : ∀ b : Bool, '\n' ∉ collapseWsGo b l := by
  induction l with
  | nil => intro b; simp [collapseWsGo]
  | cons c r ih =>
    intro b
    by_cases hws : isPyWs c = true
    · cases b with
      | true => simpa [collapseWsGo, hws] using ih true
      | false =>
        simp only [collapseWsGo, hws, if_true]
        intro hmem
        rcases List.mem_cons.mp hmem with h1 | h1
        · exact absurd h1 (by decide)
        · exact ih true h1
    · simp only [collapseWsGo, hws]
      intro hmem
      rcases List.mem_cons.mp hmem with h1 | h1
      · subst h1
        exact hws (by decide)
      · exact ih false h1

theorem mem_of_mem_lstrip {c : Char} {l : Line} (h : c ∈ lstrip l) : c ∈ l :=
  (List.dropWhile_suffix isPyWs).sublist.subset h

theorem mem_of_mem_rstrip {c : Char} {l : Line} (h : c ∈ rstrip l) : c ∈ l := by
  unfold rstrip at h
  rw [List.mem_reverse] at h
  have := (List.dropWhile_suffix isPyWs).sublist.subset h
  rwa [List.mem_reverse] at this

theorem mem_of_mem_strip {c : Char} {l : Line} (h : c ∈ strip l) : c ∈ l :=
  mem_of_mem_lstrip (mem_of_mem_rstrip h)

/-- Claim C3: the TTML parser can never produce a multi-line cue — collapsing
`\s+` to a single space erases every newline before the `split('\n')` runs,
so the cue's display-line list always has exactly one element (the claim
asserts internal line breaks are preserved as separate display lines). -/
theorem ttml_text_always_single_line (raw : Line) : (ttmlTextLines raw).length = 1 := by
  unfold ttmlTextLines
  have h : '\n' ∉ strip (collapseWs raw) := by
    intro hmem
    exact collapseWsGo_no_newline raw false (mem_of_mem_strip hmem)
  simp [h]

/-! ## CPL reflow bound (claim C6) -/

theorem rfindSpace_spec {l : Line} {m i : Nat} (h : rfindSpace l m = some i) :
    i < m ∧ l.get? i = some ' ' := by
  unfold rfindSpace at h
  have hmem : i ∈ (List.range (min m l.length)).filter
      (fun i => decide (l.get? i = some ' ')) := by
    have : i ∈ ((List.range (min m l.length)).filter
        (fun i => decide (l.get? i = some ' '))).getLast? := h ▸ rfl
    obtain ⟨hne, rfl⟩ := List.mem_getLast?_eq_getLast this
    exact List.getLast_mem hne
  obtain ⟨hr, hp⟩ := List.mem_filter.mp hmem
  have := List.mem_range.mp hr
  exact ⟨by omega, by simpa using hp⟩

theorem lstrip_length_le (l : Line) : (lstrip l).length ≤ l.length :=
  (List.dropWhile_suffix isPyWs).length_le

theorem rstrip_length_le (l : Line) : (rstrip l).length ≤ l.length := by
  unfold rstrip
  simpa using (List.dropWhile_suffix isPyWs (l := l.reverse)).length_le

theorem wrap_next_shorter {m : Nat} (hm : 1 ≤ m) {ln : Line} (hl : ln.length > m) :
    (lstrip (ln.drop ((rfindSpace ln m).getD m))).length < ln.length := by
  cases hfind : rfindSpace ln m with
  | none =>
    have h1 := lstrip_length_le (ln.drop m)
    have h2 : (ln.drop m).length = ln.length - m := List.length_drop m ln
    simp only [hfind, Option.getD]
    omega
  | some i =>
    obtain ⟨him, hsp⟩ := rfindSpace_spec hfind
    simp only [hfind, Option.getD]
    by_cases hi : i = 0
    · subst hi
      cases ln with
      | nil => simp at hsp
      | cons a tl =>
        have ha : a = ' ' := by simpa using hsp
        subst ha
        have h1 := (List.dropWhile_suffix isPyWs (l := tl)).length_le
        have hsp' : isPyWs ' ' = true := by decide
        simp only [List.drop_zero, lstrip, List.dropWhile_cons, hsp', if_true]
        simpa using Nat.lt_succ_of_le h1
    · have h1 := lstrip_length_le (ln.drop i)
      have h2 : (ln.drop i).length = ln.length - i := List.length_drop i ln
      omega

theorem wrapGo_bound {m : Nat} (hm : 1 ≤ m) :
    ∀ (fuel : Nat) (ln : Line), ln.length ≤ fuel →
      ∀ l ∈ wrapGo fuel m ln, l.length ≤ m := by
  intro fuel
  induction fuel with
  | zero =>
    intro ln hlen l hl
    have h0 : ln.length = 0 := Nat.le_zero.mp hlen
    have : ¬ ln.length > m := by omega
    simp only [wrapGo, this, if_false] at hl
    rcases List.mem_singleton.mp hl with rfl
    omega
  | succ f ih =>
    intro ln hlen l hl
    by_cases hgt : ln.length > m
    · simp only [wrapGo, hgt, if_true] at hl
      rcases List.mem_cons.mp hl with h | h
      · subst h
        have hcut : (rfindSpace ln m).getD m ≤ m := by
          cases hfind : rfindSpace ln m with
          | none => simp
          | some i =>
            obtain ⟨him, _⟩ := rfindSpace_spec hfind
            simp only [Option.getD]
            omega
        have h1 := rstrip_length_le (ln.take ((rfindSpace ln m).getD m))
        have h2 := List.length_take ((rfindSpace ln m).getD m) ln
        omega
      · have hsh := wrap_next_shorter hm hgt
        exact ih (lstrip (ln.drop ((rfindSpace ln m).getD m))) (by omega) l h
    · simp only [wrapGo, hgt, if_false] at hl
      rcases List.mem_singleton.mp hl with rfl
      omega

/-- Claim C6: under a profile with (truthy) `maxCpl = m`, the cue has at most
two lines after the CPL reflow step; and whenever the wrapped segments fit in
two lines or fewer (so no tail-joining is needed), every resulting line is at
most `m` characters — in fact unconditionally, even when some original token
exceeds `m`, because a space-free stretch is hard-cut at the limit. -/
theorem cpl_wrap_bound (p : Profile) (s : Subtitle) (m : Nat)
    (hm : p.maxCpl = some m) (h0 : m ≠ 0) :
    ((cplStep p s).1.lines).length ≤ 2 ∧
    (((s.lines.map (wrapLine m)).flatten).length ≤ 2 →
      ∀ l ∈ (cplStep p s).1.lines, l.length ≤ m) := by
  have htr : qTruthyN (some m) = true := by simp [qTruthyN, h0]
  have hlines : (cplStep p s).1.lines = cplReflow m s.lines := by
    simp [cplStep, hm, htr]
  constructor
  · rw [hlines]
    by_cases hgt : ((s.lines.map (wrapLine m)).flatten).length > 2
    · simp only [cplReflow, if_pos hgt]
      simp
    · simp only [cplReflow, if_neg hgt]
      omega
  · intro hle l hl
    rw [hlines] at hl
    have hno : ¬ ((s.lines.map (wrapLine m)).flatten.length > 2) := by omega
    simp only [cplReflow, if_neg hno] at hl
    obtain ⟨seg, hseg, hlseg⟩ := List.mem_flatten.mp hl
    obtain ⟨ln, hln, rfl⟩ := List.mem_map.mp hseg
    exact wrapGo_bound (by omega) ln.length ln le_rfl l hlseg

/-- Witness for `cpl_wrap_bound` at `maxCpl = 42` on a concrete long cue. -/
theorem cpl_wrap_bound_witness :
    ((cplStep cplProfile longCue).1.lines).length ≤ 2 ∧
    (((longCue.lines.map (wrapLine 42)).flatten).length ≤ 2 →
      ∀ l ∈ (cplStep cplProfile longCue).1.lines, l.length ≤ 42) :=
  cpl_wrap_bound cplProfile longCue 42 rfl (by decide)

/-! ## Ellipsis rule gating (claim C5) -/

/-- Claim C5 (amended): for a profile that defines an `ellipsis` policy, the
`ellipsis-three-dots` issue is emitted iff the policy object is non-empty
(truthy) and the cue text contains the literal `...`; an empty policy object
behaves as if the key were absent. -/
theorem qc_ellipsis_issue_iff (p : Profile) (pol : EllipsisPolicy) (s : Subtitle)
    (hp : p.ellipsis = some pol) :
    ellipsisIssues p s ≠ [] ↔ (pol.truthy = true ∧ hasTriple s.text = true) := by
  unfold ellipsisIssues
  rw [hp]
  by_cases ht : pol.truthy = true
  · by_cases h3 : hasTriple s.text = true
    · simp [ht, h3]
    · simp [ht, h3]
  · simp [ht]

/-- Witness for `qc_ellipsis_issue_iff`: a non-empty policy and a cue whose
text contains `...` do produce the issue. -/
theorem qc_ellipsis_issue_iff_witness : ellipsisIssues plainEllProfile dotsCue ≠ [] :=
  (qc_ellipsis_issue_iff plainEllProfile plainEllPolicy dotsCue rfl).mpr (by decide)

/-! ## Change-record emission (claim C2) -/

theorem clampMinStep_snd_ne (p : Profile) (s : Subtitle) :
    (clampMinStep p s).2 ≠ [] ↔
      (qTruthyQ p.minDurationSec = true ∧
        ((s.duration_ms : ℚ) < p.minDurationSec.getD 0 * 1000)) := by
  unfold clampMinStep
  split <;> simp_all

theorem clampMaxStep_snd_ne (p : Profile) (s : Subtitle) :
    (clampMaxStep p s).2 ≠ [] ↔
      (qTruthyQ p.maxDurationSec = true ∧
        ((s.duration_ms : ℚ) > p.maxDurationSec.getD 0 * 1000)) := by
  unfold clampMaxStep
  split <;> simp_all

theorem cplStep_snd_ne (p : Profile) (s : Subtitle) :
    (cplStep p s).2 ≠ [] ↔ qTruthyN p.maxCpl = true := by
  unfold cplStep
  split <;> simp_all

theorem ellipsisStep_snd_ne (p : Profile) (s : Subtitle) :
    (ellipsisStep p s).2 ≠ [] ↔
      (∃ pol, p.ellipsis = some pol ∧ pol.truthy = true ∧
        ellFixText pol s.text ≠ s.text) := by
  unfold ellipsisStep
  cases hp : p.ellipsis with
  | none => simp
  | some pol =>
    by_cases ht : pol.truthy = true
    · by_cases hch : ellFixText pol s.text = s.text
      · simp [ht, hch]
      · simp [ht, hch]
    · simp [ht]

theorem dashStep_snd_ne (p : Profile) (s : Subtitle) :
    (dashStep p s).2 ≠ [] ↔
      (p.dualSpeakerDash.getD false = true ∧ s.lines.length = 2) := by
  unfold dashStep
  by_cases hg : p.dualSpeakerDash.getD false = true ∧ s.lines.length = 2
  · obtain ⟨hb, hlen⟩ := hg
    rcases hls : s.lines with _ | ⟨l0, _ | ⟨l1, _ | ⟨l2, r⟩⟩⟩ <;>
      rw [hls] at hlen <;> simp at hlen
    simp [hb]
  · rw [if_neg ?_]
    · simpa using hg
    · exact fun hc => hg hc

/-- Claim C2 (amended): a cue produces a change record iff at least one fix
tag fired — spelled out per tag: the duration clamps fire exactly when their
clamp condition holds, `wrap-cpl` fires whenever `maxCpl` is truthy and
`dual-dash` whenever `dualSpeakerDash` is truthy on a cue that (at that
point) has exactly two lines, both regardless of whether anything was
mutated, and `ellipsis` fires exactly when the text changed. -/
theorem fix_record_iff (p : Profile) (s : Subtitle) :
    (safe_fixes [s] p).2 ≠ [] ↔
      ((qTruthyQ p.minDurationSec = true ∧
          ((s.duration_ms : ℚ) < p.minDurationSec.getD 0 * 1000)) ∨
       (qTruthyQ p.maxDurationSec = true ∧
          (((clampMinStep p s).1.duration_ms : ℚ) > p.maxDurationSec.getD 0 * 1000)) ∨
       qTruthyN p.maxCpl = true ∨
       (∃ pol, p.ellipsis = some pol ∧ pol.truthy = true ∧
          ellFixText pol ((cplStep p (clampMaxStep p (clampMinStep p s).1).1).1.text) ≠
            (cplStep p (clampMaxStep p (clampMinStep p s).1).1).1.text) ∨
       (p.dualSpeakerDash.getD false = true ∧
          (ellipsisStep p (cplStep p (clampMaxStep p (clampMinStep p s).1).1).1).1.lines.length
            = 2)) := by
  have hsf : (safe_fixes [s] p).2 ≠ [] ↔ (fixCue p s).2 ≠ [] := by
    unfold safe_fixes
    by_cases h : (fixCue p s).2 = [] <;> simp [h]
  have aux : ∀ a b c d e : List String,
      (a ++ b ++ c ++ d ++ e ≠ []) ↔
        (a ≠ [] ∨ b ≠ [] ∨ c ≠ [] ∨ d ≠ [] ∨ e ≠ []) := by
    intro a b c d e
    simp only [ne_eq, List.append_eq_nil, not_and_or]
    tauto
  have h5 : (fixCue p s).2 =
      (clampMinStep p s).2 ++ (clampMaxStep p (clampMinStep p s).1).2 ++
      (cplStep p (clampMaxStep p (clampMinStep p s).1).1).2 ++
      (ellipsisStep p (cplStep p (clampMaxStep p (clampMinStep p s).1).1).1).2 ++
      (dashStep p (ellipsisStep p (cplStep p (clampMaxStep p (clampMinStep p s).1).1).1).1).2 :=
    rfl
  rw [hsf, h5, aux, clampMinStep_snd_ne, clampMaxStep_snd_ne, cplStep_snd_ne,
    ellipsisStep_snd_ne, dashStep_snd_ne]

/-! ## Ellipsis-fix idempotence (claim C9) -/

theorem hasTriple_cons (c : Char) (l : Line) :
    hasTriple (c :: l) =
      ((decide (c = '.') && decide (l.take 2 = ['.', '.'])) || hasTriple l) := by
  rcases l with _ | ⟨c2, _ | ⟨c3, rest⟩⟩
  · simp [hasTriple]
  · simp [hasTriple]
  · by_cases h2 : c2 = '.' <;> by_cases h3 : c3 = '.' <;>
      simp [hasTriple, h2, h3]

theorem hasTriple_append_left {d : Line} (hd : ∀ a ∈ d, a ≠ '.') (b : Line) :
    hasTriple (d ++ b) = hasTriple b := by
  induction d with
  | nil => rfl
  | cons c d' ih =>
    have hc : c ≠ '.' := hd c (by simp)
    rw [List.cons_append, hasTriple_cons]
    simp [hc, ih (fun a ha => hd a (by simp [ha]))]

theorem pyReplace3_cons_ne (d : Line) {a : Char} (t : Line) (ha : a ≠ '.') :
    pyReplace3 d (a :: t) = a :: pyReplace3 d t := by
  rcases t with _ | ⟨c2, _ | ⟨c3, rest⟩⟩
  · simp [pyReplace3]
  · simp [pyReplace3]
  · simp [pyReplace3, ha]

theorem pyReplace3_cons_cons (d : Line) {c c2 c3 : Char} (rest : Line)
    (h : ¬ (c = '.' ∧ c2 = '.' ∧ c3 = '.')) :
    pyReplace3 d (c :: c2 :: c3 :: rest) = c :: pyReplace3 d (c2 :: c3 :: rest) := by
  simp only [pyReplace3]
  rw [if_neg h]

theorem pyReplace3_take2 (d : Line) (c2 c3 : Char) (rest : Line)
    (h : ¬ (c2 = '.' ∧ c3 = '.')) :
    (pyReplace3 d (c2 :: c3 :: rest)).take 2 ≠ ['.', '.'] := by
  by_cases h2 : c2 = '.'
  · have h3 : c3 ≠ '.' := fun hh => h ⟨h2, hh⟩
    subst h2
    rcases rest with _ | ⟨c4, rest'⟩
    · simp [pyReplace3, h3]
    · have hcond : ¬ ('.' = '.' ∧ c3 = '.' ∧ c4 = '.') := by
        rintro ⟨-, h3', -⟩
        exact h3 h3'
      rw [pyReplace3_cons_cons d _ hcond, pyReplace3_cons_ne d _ h3]
      simp [h3]
  · rw [pyReplace3_cons_ne d _ h2]
    simp [h2]

theorem pyReplace3_noTriple {d : Line} (hd : ∀ a ∈ d, a ≠ '.') (l : Line) :
    hasTriple (pyReplace3 d l) = false := by
  induction l using pyReplace3.induct d with
  | case1 => rfl
  | case2 c => rfl
  | case3 c c2 => rfl
  | case4 c c2 c3 rest h ih =>
    obtain ⟨rfl, rfl, rfl⟩ := h
    rw [show pyReplace3 d ('.' :: '.' :: '.' :: rest) = d ++ pyReplace3 d rest from by
      simp [pyReplace3]]
    rw [hasTriple_append_left hd]
    exact ih
  | case5 c c2 c3 rest h ih =>
    rw [pyReplace3_cons_cons d _ h, hasTriple_cons]
    by_cases hc : c = '.'
    · have h23 : ¬ (c2 = '.' ∧ c3 = '.') := fun ⟨ha, hb⟩ => h ⟨hc, ha, hb⟩
      have ht2 := pyReplace3_take2 d c2 c3 rest h23
      simp [ih, ht2]
    · simp [hc, ih]

theorem pyReplace3_fixpoint (d : Line) (l : Line) (hl : hasTriple l = false) :
    pyReplace3 d l = l := by
  induction l using pyReplace3.induct d with
  | case1 => rfl
  | case2 c => rfl
  | case3 c c2 => rfl
  | case4 c c2 c3 rest h ih =>
    obtain ⟨rfl, rfl, rfl⟩ := h
    simp [hasTriple] at hl
  | case5 c c2 c3 rest h ih =>
    have htl : hasTriple (c2 :: c3 :: rest) = false := by
      rw [hasTriple_cons] at hl
      exact (Bool.or_eq_false_iff.mp hl).2
    rw [pyReplace3_cons_cons d _ h, ih htl]

theorem isPyWs_ell : isPyWs '…' = false := by decide

theorem ell_ne_dot : ('…' : Char) ≠ '.' := by decide

theorem subEllGo_ell (b : Bool) (r : Line) :
    subEllGo b ('…' :: r) = '…' :: subEllGo true r := by
  simp [subEllGo]

theorem subEllGo_skip {c : Char} (hc : c ≠ '…') (hw : isPyWs c = true) (r : Line) :
    subEllGo true (c :: r) = subEllGo true r := by
  simp [subEllGo, hc, hw]

theorem subEllGo_drop {c : Char} (hc : c ≠ '…') (hw : isPyWs c = true) {r : Line}
    (hwte : wsThenEll r = true) :
    subEllGo false (c :: r) = subEllGo false r := by
  simp [subEllGo, hc, hw, hwte]

theorem subEllGo_keep {c : Char} (hc : c ≠ '…') (hw : isPyWs c = true) {r : Line}
    (hwte : wsThenEll r = false) :
    subEllGo false (c :: r) = c :: subEllGo false r := by
  simp [subEllGo, hc, hw, hwte]

theorem subEllGo_other (b : Bool) {c : Char} (hc : c ≠ '…') (hw : isPyWs c = false)
    (r : Line) :
    subEllGo b (c :: r) = c :: subEllGo false r := by
  simp [subEllGo, hc, hw]

theorem wsThenEll_subEllGo {r : Line} (h : wsThenEll r = false) :
    wsThenEll (subEllGo false r) = false := by
  induction r with
  | nil => simp [subEllGo, wsThenEll]
  | cons c r' ih =>
    by_cases hc : c = '…'
    · rw [wsThenEll, if_pos hc] at h
      exact absurd h (by simp)
    · by_cases hw : isPyWs c = true
      · have h' : wsThenEll r' = false := by
          rw [wsThenEll, if_neg hc, if_pos hw] at h
          exact h
        rw [subEllGo_keep hc hw h', wsThenEll, if_neg hc, if_pos hw]
        exact ih h'
      · rw [subEllGo_other false hc (by simpa using hw), wsThenEll, if_neg hc,
          if_neg hw]

theorem subEllGo_head_ell {y : Line} (h : wsThenEll y = true) :
    ∃ z, subEllGo false y = '…' :: z := by
  induction y with
  | nil => simp [wsThenEll] at h
  | cons c r ih =>
    by_cases hc : c = '…'
    · subst hc
      exact ⟨subEllGo true r, subEllGo_ell false r⟩
    · by_cases hw : isPyWs c = true
      · have h' : wsThenEll r = true := by
          rw [wsThenEll, if_neg hc, if_pos hw] at h
          exact h
        obtain ⟨z, hz⟩ := ih h'
        exact ⟨z, by rw [subEllGo_drop hc hw h', hz]⟩
      · rw [wsThenEll, if_neg hc, if_neg hw] at h
        exact absurd h (by simp)

theorem headNotWs_subEllGo_true (r : Line) : headNotWs (subEllGo true r) = true := by
  induction r with
  | nil => simp [subEllGo, headNotWs]
  | cons c r' ih =>
    by_cases hc : c = '…'
    · subst hc
      rw [subEllGo_ell true r', headNotWs]
      simp [isPyWs_ell]
    · by_cases hw : isPyWs c = true
      · rw [subEllGo_skip hc hw r']
        exact ih
      · rw [subEllGo_other true hc (by simpa using hw) r', headNotWs]
        simpa using hw

theorem subEllGo_true_eq_false {r : Line} (h : headNotWs r = true) :
    subEllGo true r = subEllGo false r := by
  cases r with
  | nil => rfl
  | cons c r' =>
    have hw : isPyWs c = false := by simpa [headNotWs] using h
    by_cases hc : c = '…'
    · subst hc
      rw [subEllGo_ell true r', subEllGo_ell false r']
    · rw [subEllGo_other true hc hw r', subEllGo_other false hc hw r']

theorem cleanEll_cons (c : Char) (r : Line) :
    cleanEll (c :: r) =
      (((!decide (c = '…')) || headNotWs r) &&
       (((!isPyWs c) || !wsThenEll r) && cleanEll r)) := by
  rw [cleanEll]
  rw [Bool.and_assoc]

theorem cleanEll_subEllGo (l : Line) : ∀ b, cleanEll (subEllGo b l) = true := by
  induction l with
  | nil => intro b; rfl
  | cons c r ih =>
    intro b
    by_cases hc : c = '…'
    · subst hc
      rw [subEllGo_ell b r, cleanEll_cons]
      simp [isPyWs_ell, headNotWs_subEllGo_true r, ih true]
    · by_cases hw : isPyWs c = true
      · cases b with
        | true =>
          rw [subEllGo_skip hc hw r]
          exact ih true
        | false =>
          by_cases hwte : wsThenEll r = true
          · rw [subEllGo_drop hc hw hwte]
            exact ih false
          · have hne : wsThenEll r = false := by simpa using hwte
            rw [subEllGo_keep hc hw hne, cleanEll_cons]
            simp [hc, wsThenEll_subEllGo hne, ih false]
      · have hw' : isPyWs c = false := by simpa using hw
        rw [subEllGo_other b hc hw' r, cleanEll_cons]
        simp [hc, hw', ih false]

theorem cleanEll_fixpoint {x : Line} (h : cleanEll x = true) : subEllGo false x = x := by
  induction x with
  | nil => rfl
  | cons c r ih =>
    rw [cleanEll_cons] at h
    simp only [Bool.and_eq_true, Bool.or_eq_true] at h
    obtain ⟨h1, h2, h3⟩ := h
    by_cases hc : c = '…'
    · subst hc
      have hh : headNotWs r = true := by
        rcases h1 with h1 | h1
        · simp at h1
        · exact h1
      rw [subEllGo_ell false r, subEllGo_true_eq_false hh, ih h3]
    · by_cases hw : isPyWs c = true
      · have hnw : wsThenEll r = false := by
          rcases h2 with h2 | h2
          · rw [hw] at h2
            simp at h2
          · simpa using h2
        rw [subEllGo_keep hc hw hnw, ih h3]
      · rw [subEllGo_other false hc (by simpa using hw) r, ih h3]

theorem subEll_idem (l : Line) : subEll (subEll l) = subEll l :=
  cleanEll_fixpoint (cleanEll_subEllGo l false)

theorem subEllGo_false_head {r : Line} {h : Char}
    (hh : (subEllGo false r).head? = some h) : h = '…' ∨ r.head? = some h := by
  induction r with
  | nil => simp [subEllGo] at hh
  | cons c r' ih =>
    by_cases hc : c = '…'
    · subst hc
      rw [subEllGo_ell false r'] at hh
      simp only [List.head?_cons, Option.some.injEq] at hh
      exact Or.inl hh.symm
    · by_cases hw : isPyWs c = true
      · by_cases hwte : wsThenEll r' = true
        · obtain ⟨z, hz⟩ := subEllGo_head_ell hwte
          rw [subEllGo_drop hc hw hwte, hz] at hh
          simp only [List.head?_cons, Option.some.injEq] at hh
          exact Or.inl hh.symm
        · have hne : wsThenEll r' = false := by simpa using hwte
          rw [subEllGo_keep hc hw hne] at hh
          simp only [List.head?_cons, Option.some.injEq] at hh
          exact Or.inr (by rw [hh]; rfl)
      · rw [subEllGo_other false hc (by simpa using hw) r'] at hh
        simp only [List.head?_cons, Option.some.injEq] at hh
        exact Or.inr (by rw [hh]; rfl)

theorem subEllGo_false_take2 {r : Line} (h2 : r.take 2 ≠ ['.', '.']) :
    (subEllGo false r).take 2 ≠ ['.', '.'] := by
  intro hcon
  obtain ⟨x1, hx1⟩ : ∃ z, subEllGo false r = '.' :: '.' :: z := by
    rcases hs : subEllGo false r with _ | ⟨a, _ | ⟨a2, z⟩⟩ <;> rw [hs] at hcon <;>
      simp at hcon
    obtain ⟨rfl, rfl⟩ := hcon
    exact ⟨z, rfl⟩
  have hhead : ('.' : Char) = '…' ∨ r.head? = some '.' :=
    subEllGo_false_head (by rw [hx1]; rfl)
  rcases hhead with hhead | hhead
  · exact absurd hhead (by decide)
  · obtain ⟨r1, rfl⟩ : ∃ r1, r = '.' :: r1 := by
      cases r with
      | nil => simp at hhead
      | cons a r1 =>
        simp only [List.head?_cons, Option.some.injEq] at hhead
        exact ⟨r1, by rw [hhead]⟩
    rw [subEllGo_other false (by decide) (by decide) r1] at hx1
    have hz1 : (subEllGo false r1).head? = some '.' := by
      rw [List.cons.injEq] at hx1
      rw [hx1.2]
      rfl
    rcases subEllGo_false_head hz1 with hh | hh
    · exact absurd hh (by decide)
    · obtain ⟨r2, rfl⟩ : ∃ r2, r1 = '.' :: r2 := by
        cases r1 with
        | nil => simp at hh
        | cons a r2 =>
          simp only [List.head?_cons, Option.some.injEq] at hh
          exact ⟨r2, by rw [hh]⟩
      exact h2 rfl

theorem hasTriple_subEllGo {x : Line} (hx : hasTriple x = false) :
    ∀ b, hasTriple (subEllGo b x) = false := by
  induction x with
  | nil => intro b; rfl
  | cons c r ih =>
    intro b
    rw [hasTriple_cons] at hx
    obtain ⟨hx1, hx2⟩ := Bool.or_eq_false_iff.mp hx
    by_cases hc : c = '…'
    · subst hc
      rw [subEllGo_ell b r, hasTriple_cons]
      simp [ell_ne_dot, ih hx2 true]
    · by_cases hw : isPyWs c = true
      · cases b with
        | true =>
          rw [subEllGo_skip hc hw r]
          exact ih hx2 true
        | false =>
          by_cases hwte : wsThenEll r = true
          · rw [subEllGo_drop hc hw hwte]
            exact ih hx2 false
          · have hne : wsThenEll r = false := by simpa using hwte
            rw [subEllGo_keep hc hw hne, hasTriple_cons]
            have hcdot : c ≠ '.' := by
              intro hcc
              rw [hcc] at hw
              simp [isPyWs] at hw
            simp [hcdot, ih hx2 false]
      · rw [subEllGo_other b hc (by simpa using hw) r, hasTriple_cons]
        by_cases hcdot : c = '.'
        · have ht2 : r.take 2 ≠ ['.', '.'] := by
            intro hcon
            rw [hcdot] at hx1
            simp [hcon] at hx1
          have hs2 := subEllGo_false_take2 ht2
          simp [ih hx2 false, hs2]
        · simp [hcdot, ih hx2 false]

theorem pySplitP_ne_nil (p : α → Bool) (l : List α) : pySplitP p l ≠ [] := by
  cases l with
  | nil => simp [pySplitP]
  | cons a r =>
    rw [pySplitP]
    by_cases h : p a = true
    · simp [h]
    · simp only [h, if_false, Bool.false_eq_true]
      cases hm : pySplitP p r <;> simp

theorem joinSep_cons_cons (sep : α) (x y : List α) (t : List (List α)) :
    joinSep sep (x :: y :: t) = x ++ sep :: joinSep sep (y :: t) := rfl

theorem joinSep_pySplit [DecidableEq α] (sep : α) (l : List α) :
    joinSep sep (pySplit sep l) = l := by
  induction l with
  | nil => rfl
  | cons c r ih =>
    show joinSep sep (pySplitP (fun a => decide (a = sep)) (c :: r)) = c :: r
    rw [pySplitP]
    obtain ⟨x, xs, hx⟩ : ∃ x xs, pySplitP (fun a => decide (a = sep)) r = x :: xs := by
      cases hm : pySplitP (fun a => decide (a = sep)) r with
      | nil => exact absurd hm (pySplitP_ne_nil _ r)
      | cons x xs => exact ⟨x, xs, rfl⟩
    have ihx : joinSep sep (x :: xs) = r := by
      rw [← hx]
      exact ih
    by_cases h : c = sep
    · rw [if_pos (by simp [h]), hx, joinSep_cons_cons, ihx]
      rw [h]
      rfl
    · rw [if_neg (by simp [h]), hx]
      cases xs with
      | nil =>
        simp only [joinSep] at ihx ⊢
        rw [ihx]
      | cons y ys =>
        rw [joinSep_cons_cons] at ihx
        rw [joinSep_cons_cons, List.cons_append, ihx]

theorem ellFixText_idem (pol : EllipsisPolicy)
    (hd : ∀ a ∈ pol.char.getD ['…'], a ≠ '.') (t : Line) :
    ellFixText pol (ellFixText pol t) = ellFixText pol t := by
  simp only [ellFixText]
  by_cases hns : pol.noSpacesWithinSentence.getD false = true
  · simp only [hns, if_true]
    have hl : hasTriple (subEll (pyReplace3 (pol.char.getD ['…']) t)) = false :=
      hasTriple_subEllGo (pyReplace3_noTriple hd t) false
    rw [pyReplace3_fixpoint _ _ hl]
    exact subEll_idem _
  · simp only [hns, if_false]
    exact pyReplace3_fixpoint _ _ (pyReplace3_noTriple hd t)

theorem ellipsisStep_text (p : Profile) (pol : EllipsisPolicy) (s : Subtitle)
    (hp : p.ellipsis = some pol) (ht : pol.truthy = true) :
    ((ellipsisStep p s).1).text = ellFixText pol s.text := by
  unfold ellipsisStep
  rw [hp]
  simp only [ht, if_true]
  by_cases hch : ellFixText pol s.text = s.text
  · simp [hch]
  · simp only [ne_eq, hch, not_false_eq_true, if_true]
    show joinSep '\n' (pySplit '\n' (ellFixText pol s.text)) = _
    exact joinSep_pySplit '\n' _

/-- Claim C9 (amended): applying the ellipsis-normalization step of
`safe_fixes` twice produces the same cue text as applying it once, for every
profile whose configured ellipsis character contains no `.` (in particular
for the default `…`); the counterexample shows a dotted replacement string
breaks this. -/
theorem ellipsis_fix_idempotent (p : Profile) (pol : EllipsisPolicy) (s : Subtitle)
    (hp : p.ellipsis = some pol)
    (hchar : ∀ c ∈ pol.char.getD ['…'], c ≠ '.') :
    ((ellipsisStep p (ellipsisStep p s).1).1).text = ((ellipsisStep p s).1).text := by
  by_cases ht : pol.truthy = true
  · rw [ellipsisStep_text p pol _ hp ht, ellipsisStep_text p pol s hp ht,
      ellFixText_idem pol hchar]
  · have hid : ∀ u : Subtitle, (ellipsisStep p u).1 = u := by
      intro u
      unfold ellipsisStep
      rw [hp]
      simp [ht]
    rw [hid, hid]

/-- Witness for `ellipsis_fix_idempotent`: default character with
`noSpacesWithinSentence` on a cue containing spaced dots. -/
theorem ellipsis_fix_idempotent_witness :
    ((ellipsisStep noSpacesProfile (ellipsisStep noSpacesProfile spacedDotsCue).1).1).text =
      ((ellipsisStep noSpacesProfile spacedDotsCue).1).text :=
  ellipsis_fix_idempotent noSpacesProfile noSpacesPolicy spacedDotsCue rfl (by decide)

/-! ## SRT serializer round trip (claim C7): digits and timestamps -/

theorem digitChar_props (n : Nat) :
    (digitChar n).isDigit = true ∧ isPyWs (digitChar n) = false ∧
      digitChar n ≠ ':' ∧ digitChar n ≠ ',' ∧ digitChar n ≠ '-' := by
  unfold digitChar
  split <;> refine ⟨by decide, by decide, by decide, by decide, by decide⟩

theorem digitVal_digitChar {n : Nat} (h : n < 10) : digitVal (digitChar n) = n := by
  interval_cases n <;> decide

theorem natDigitsGo_val : ∀ (fuel n : Nat), n < fuel →
    digitsVal (natDigitsGo fuel n) = n := by
  intro fuel
  induction fuel with
  | zero => intro n h; omega
  | succ f ih =>
    intro n h
    rw [natDigitsGo]
    by_cases h10 : n < 10
    · rw [if_pos h10]
      show digitsVal [digitChar n] = n
      unfold digitsVal
      simp [digitVal_digitChar h10]
    · rw [if_neg h10]
      unfold digitsVal
      rw [List.foldl_append]
      have hdiv : n / 10 < f := by
        have := Nat.div_lt_self (by omega : 0 < n) (by omega : 1 < 10)
        omega
      have hv := ih (n / 10) hdiv
      unfold digitsVal at hv
      rw [hv]
      simp only [List.foldl_cons, List.foldl_nil]
      rw [digitVal_digitChar (Nat.mod_lt n (by omega))]
      omega

theorem natDigitsGo_mem : ∀ (fuel n : Nat), ∀ c ∈ natDigitsGo fuel n, ∃ k, c = digitChar k := by
  intro fuel
  induction fuel with
  | zero => intro n c hc; simp [natDigitsGo] at hc
  | succ f ih =>
    intro n c hc
    rw [natDigitsGo] at hc
    by_cases h10 : n < 10
    · rw [if_pos h10] at hc
      simp only [List.mem_singleton] at hc
      exact ⟨n, hc⟩
    · rw [if_neg h10] at hc
      rcases List.mem_append.mp hc with hc | hc
      · exact ih _ c hc
      · simp only [List.mem_singleton] at hc
        exact ⟨n % 10, hc⟩

theorem natDigits_mem {n : Nat} {c : Char} (hc : c ∈ natDigits n) :
    ∃ k, c = digitChar k :=
  natDigitsGo_mem (n + 1) n c hc

theorem digitsVal_natDigits (n : Nat) : digitsVal (natDigits n) = n :=
  natDigitsGo_val (n + 1) n (by omega)

theorem natDigits_ne_nil (n : Nat) : natDigits n ≠ [] := by
  unfold natDigits natDigitsGo
  by_cases h10 : n < 10
  · simp [h10]
  · simp [h10]

theorem padZeros_mem {w : Nat} {l : Line} {c : Char} (hc : c ∈ padZeros w l) :
    c = '0' ∨ c ∈ l := by
  unfold padZeros at hc
  rcases List.mem_append.mp hc with hc | hc
  · exact Or.inl (List.eq_of_mem_replicate hc)
  · exact Or.inr hc

theorem padZeros_ne_nil {w : Nat} {l : Line} (h : l ≠ []) : padZeros w l ≠ [] := by
  unfold padZeros
  simp [h]

theorem digitsVal_padZeros (w : Nat) (l : Line) :
    digitsVal (padZeros w l) = digitsVal l := by
  unfold padZeros digitsVal
  rw [List.foldl_append]
  have hz : ∀ k, List.foldl (fun a c => 10 * a + digitVal c) 0
      (List.replicate k '0') = 0 := by
    intro k
    induction k with
    | zero => rfl
    | succ j ihj =>
      rw [List.replicate_succ, List.foldl_cons]
      simpa [digitVal] using ihj
  rw [hz]

theorem pad_natDigits_mem {w n : Nat} {c : Char} (hc : c ∈ padZeros w (natDigits n)) :
    (c.isDigit = true ∧ isPyWs c = false ∧ c ≠ ':' ∧ c ≠ ',' ∧ c ≠ '-') := by
  rcases padZeros_mem hc with rfl | hc
  · refine ⟨by decide, by decide, by decide, by decide, by decide⟩
  · obtain ⟨k, rfl⟩ := natDigits_mem hc
    exact digitChar_props k

theorem parseNatDigits_pad (w n : Nat) :
    parseNatDigits (padZeros w (natDigits n)) = some n := by
  unfold parseNatDigits
  have hd : isDigitsLine (padZeros w (natDigits n)) = true := by
    unfold isDigitsLine
    rw [Bool.and_eq_true]
    refine ⟨by simp [padZeros_ne_nil (natDigits_ne_nil n)], ?_⟩
    rw [List.all_eq_true]
    intro c hc
    exact (pad_natDigits_mem (by simpa using hc)).1
  rw [if_pos hd, digitsVal_padZeros, digitsVal_natDigits]

theorem fmtTs_mem {ms : Nat} {c : Char} (hc : c ∈ fmtTs ms) :
    isPyWs c = false ∧ c ≠ '-' := by
  unfold fmtTs at hc
  simp only [List.mem_append, List.mem_cons] at hc
  rcases hc with ((hc | rfl | hc) | rfl | hc) | rfl | hc
  · exact ⟨(pad_natDigits_mem hc).2.1, (pad_natDigits_mem hc).2.2.2.2⟩
  · exact ⟨by decide, by decide⟩
  · exact ⟨(pad_natDigits_mem hc).2.1, (pad_natDigits_mem hc).2.2.2.2⟩
  · exact ⟨by decide, by decide⟩
  · exact ⟨(pad_natDigits_mem hc).2.1, (pad_natDigits_mem hc).2.2.2.2⟩
  · exact ⟨by decide, by decide⟩
  · exact ⟨(pad_natDigits_mem hc).2.1, (pad_natDigits_mem hc).2.2.2.2⟩

theorem fmtTs_ne_nil (ms : Nat) : fmtTs ms ≠ [] := by
  unfold fmtTs
  simp [padZeros_ne_nil (natDigits_ne_nil (ms / 1000 / 3600))]

theorem dropWhile_all_false {p : α → Bool} {x : List α} (h : ∀ c ∈ x, p c = false) :
    x.dropWhile p = x := by
  cases x with
  | nil => rfl
  | cons c r =>
    rw [List.dropWhile_cons, if_neg]
    simp [h c (by simp)]

theorem strip_eq_self {l : Line} (h : ∀ c ∈ l, isPyWs c = false) : strip l = l := by
  unfold strip lstrip rstrip
  rw [dropWhile_all_false h, dropWhile_all_false (by simpa using h), List.reverse_reverse]

theorem lstrip_append_of_ne {l : Line} {c : Char} {r z : List Char}
    (hl : l = c :: r) (hc : isPyWs c = false) :
    lstrip (l ++ z) = l ++ z := by
  subst hl
  rw [List.cons_append, lstrip, List.dropWhile_cons, if_neg (by simp [hc])]

theorem rstrip_append_of {z l : Line} (hne : l ≠ [])
    (h : ∀ c ∈ l, isPyWs c = false) : rstrip (z ++ l) = z ++ l := by
  unfold rstrip
  rw [List.reverse_append]
  obtain ⟨a, t, ha⟩ : ∃ a t, l.reverse = a :: t := by
    cases hr : l.reverse with
    | nil => exact absurd (by simpa using congrArg List.reverse hr) hne
    | cons a t => exact ⟨a, t, rfl⟩
  have hmem : a ∈ l := by
    have : a ∈ l.reverse := by rw [ha]; simp
    simpa using this
  rw [ha, List.cons_append, List.dropWhile_cons, if_neg (by simp [h a hmem]),
    ← List.cons_append, ← ha, ← List.reverse_append, List.reverse_reverse]

theorem strip_fmtTs_append_sp (ms : Nat) : strip (fmtTs ms ++ [' ']) = fmtTs ms := by
  obtain ⟨a, t, ha⟩ : ∃ a t, fmtTs ms = a :: t := by
    cases hf : fmtTs ms with
    | nil => exact absurd hf (fmtTs_ne_nil ms)
    | cons a t => exact ⟨a, t, rfl⟩
  have hmem : a ∈ fmtTs ms := by rw [ha]; simp
  unfold strip
  rw [lstrip_append_of_ne ha (fmtTs_mem hmem).1]
  show rstrip (fmtTs ms ++ [' ']) = fmtTs ms
  unfold rstrip
  rw [List.reverse_append]
  show (((' ' :: []) ++ (fmtTs ms).reverse).dropWhile isPyWs).reverse = fmtTs ms
  rw [List.cons_append, List.dropWhile_cons, if_pos (by decide), List.nil_append]
  rw [dropWhile_all_false (by
    intro c hc
    exact (fmtTs_mem (by simpa using hc)).1)]
  exact List.reverse_reverse _

theorem strip_sp_fmtTs (ms : Nat) : strip (' ' :: fmtTs ms) = fmtTs ms := by
  unfold strip
  rw [lstrip, List.dropWhile_cons, if_pos (by decide)]
  rw [show (fmtTs ms).dropWhile isPyWs = fmtTs ms from dropWhile_all_false (by
    intro c hc
    exact (fmtTs_mem hc).1)]
  show rstrip ([] ++ fmtTs ms) = fmtTs ms
  rw [rstrip_append_of (fmtTs_ne_nil ms) (fun c hc => (fmtTs_mem hc).1)]
  rfl

theorem pySplitP_all_false {p : α → Bool} {x : List α} (h : ∀ c ∈ x, p c = false) :
    pySplitP p x = [x] := by
  induction x with
  | nil => rfl
  | cons a r ih =>
    rw [pySplitP, if_neg (by simp [h a (by simp)]),
      ih (fun c hc => h c (by simp [hc]))]

theorem pySplit_of_not_mem [DecidableEq α] {sep : α} {x : List α} (h : sep ∉ x) :
    pySplit sep x = [x] := by
  unfold pySplit
  exact pySplitP_all_false (by
    intro c hc
    simp only [decide_eq_false_iff_not]
    intro hce
    exact h (hce ▸ hc))

theorem pySplit_append_cons [DecidableEq α] {sep : α} {x : List α} (h : sep ∉ x)
    (z : List α) : pySplit sep (x ++ sep :: z) = x :: pySplit sep z := by
  induction x with
  | nil =>
    show pySplitP _ (sep :: z) = [] :: pySplit sep z
    rw [pySplitP, if_pos (by simp)]
    rfl
  | cons c x' ih =>
    have hc : c ≠ sep := fun hce => h (by simp [hce])
    have hx' : sep ∉ x' := fun hm => h (by simp [hm])
    show pySplitP _ ((c :: x') ++ sep :: z) = (c :: x') :: pySplit sep z
    rw [List.cons_append, pySplitP, if_neg (by simp [hc])]
    rw [show pySplitP (fun a => decide (a = sep)) (x' ++ sep :: z) =
      x' :: pySplit sep z from ih hx']

theorem pySplitWs_all_false {x : Line} (hne : x ≠ [])
    (h : ∀ c ∈ x, isPyWs c = false) : pySplitWs x = [x] := by
  unfold pySplitWs
  rw [pySplitP_all_false h]
  simp [hne]

theorem parse_timestamp_srt_spec {ts : Line} {ms : Nat} (h : strip ts = fmtTs ms) :
    parse_timestamp_srt ts = some ms := by
  unfold parse_timestamp_srt
  rw [h]
  have hsh : fmtTs ms = padZeros 2 (natDigits (ms / 1000 / 3600)) ++
      ':' :: (padZeros 2 (natDigits (ms / 1000 % 3600 / 60)) ++
      ':' :: (padZeros 2 (natDigits (ms / 1000 % 60)) ++
      ',' :: padZeros 3 (natDigits (ms % 1000)))) := by
    unfold fmtTs
    simp [List.append_assoc, List.cons_append]
  have hnc : ∀ n w, (':' : Char) ∉ padZeros w (natDigits n) := by
    intro n w hm
    exact (pad_natDigits_mem hm).2.2.1 rfl
  have hncm : ∀ n w, (',' : Char) ∉ padZeros w (natDigits n) := by
    intro n w hm
    exact (pad_natDigits_mem hm).2.2.2.1 rfl
  rw [hsh, pySplit_append_cons (hnc _ _), pySplit_append_cons (hnc _ _),
    pySplit_of_not_mem (by
      intro hm
      rcases List.mem_append.mp hm with hm | hm
      · exact hnc _ _ hm
      · rcases List.mem_cons.mp hm with hm | hm
        · exact absurd hm.symm (by decide)
        · exact hnc _ _ hm)]
  have h1 := Nat.div_add_mod ms 1000
  have h2 := Nat.div_add_mod (ms / 1000) 3600
  have h3 := Nat.div_add_mod (ms / 1000 % 3600) 60
  have h4 : ms / 1000 % 3600 % 60 = ms / 1000 % 60 :=
    Nat.mod_mod_of_dvd _ (by norm_num)
  have h5 : ms / 1000 % 60 < 60 := Nat.mod_lt _ (by omega)
  simp only [pySplit_append_cons (hncm _ _), pySplit_of_not_mem (hncm _ _)]
  simp only [parseNatDigits_pad, Option.bind_eq_bind, Option.some_bind, Option.map_some']
  rw [Option.some_inj]
  omega

theorem splitArrow_no_dash {l : Line} (h : '-' ∉ l) : splitArrow l = [l] := by
  induction l using splitArrow.induct with
  | case1 => rfl
  | case2 c => rfl
  | case3 c c2 => rfl
  | case4 c c2 c3 rest hcond ih =>
    exact absurd (by simp [hcond.1] : '-' ∈ c :: c2 :: c3 :: rest) h
  | case5 c c2 c3 rest hcond h0 t heq ih =>
    have htail : splitArrow (c2 :: c3 :: rest) = [c2 :: c3 :: rest] :=
      ih (fun hm => h (List.mem_cons.mpr (Or.inr hm)))
    rw [heq] at htail
    injection htail with e1 e2
    subst e1
    subst e2
    simp only [splitArrow]
    rw [if_neg hcond, heq]
  | case6 c c2 c3 rest hcond heq ih =>
    have htail : splitArrow (c2 :: c3 :: rest) = [c2 :: c3 :: rest] :=
      ih (fun hm => h (List.mem_cons.mpr (Or.inr hm)))
    rw [heq] at htail
    simp at htail

theorem splitArrow_arrow_start (y : Line) :
    splitArrow ('-' :: '-' :: '>' :: y) = [] :: splitArrow y := by
  simp [splitArrow]

theorem splitArrow_prepend {x : Line} (hx : '-' ∉ x) {z : Line} (hz : 2 ≤ z.length) :
    ∀ {h0 : Line} {t : List Line}, splitArrow z = h0 :: t →
      splitArrow (x ++ z) = (x ++ h0) :: t := by
  induction x with
  | nil =>
    intro h0 t hsp
    simpa using hsp
  | cons c x' ih =>
    intro h0 t hsp
    have hc : c ≠ '-' := fun hce => hx (by simp [hce])
    have hx' : '-' ∉ x' := fun hm => hx (by simp [hm])
    obtain ⟨d1, d2, rest', hsh⟩ : ∃ d1 d2 rest', x' ++ z = d1 :: d2 :: rest' := by
      cases x' with
      | nil =>
        cases z with
        | nil => simp at hz
        | cons a zz =>
          cases zz with
          | nil => simp at hz
          | cons b zz' => exact ⟨a, b, zz', by simp⟩
      | cons a x'' =>
        cases hxz : x'' ++ z with
        | nil =>
          obtain ⟨-, rfl⟩ := List.append_eq_nil.mp hxz
          simp at hz
        | cons b rest' => exact ⟨a, b, rest', by simp [hxz]⟩
    rw [List.cons_append, hsh]
    simp only [splitArrow]
    rw [if_neg (fun hcon => hc hcon.1), ← hsh, ih hx' hsp]
    simp

theorem splitArrow_timing (a b : Nat) :
    splitArrow (fmtTs a ++ ' ' :: '-' :: '-' :: '>' :: ' ' :: fmtTs b) =
      [fmtTs a ++ [' '], ' ' :: fmtTs b] := by
  have h2 : splitArrow (' ' :: fmtTs b) = [' ' :: fmtTs b] := by
    apply splitArrow_no_dash
    intro hm
    rcases List.mem_cons.mp hm with hm | hm
    · exact absurd hm (by decide)
    · exact (fmtTs_mem hm).2 rfl
  have h1 : splitArrow ('-' :: '-' :: '>' :: ' ' :: fmtTs b) =
      [] :: [' ' :: fmtTs b] := by
    rw [splitArrow_arrow_start, h2]
  have hx : '-' ∉ fmtTs a ++ [' '] := by
    intro hm
    rcases List.mem_append.mp hm with hm | hm
    · exact (fmtTs_mem hm).2 rfl
    · exact absurd (List.mem_singleton.mp hm) (by decide)
  have hz : 2 ≤ ('-' :: '-' :: '>' :: ' ' :: fmtTs b).length := by simp
  have hmain := splitArrow_prepend hx hz h1
  rw [show fmtTs a ++ ' ' :: '-' :: '-' :: '>' :: ' ' :: fmtTs b =
      (fmtTs a ++ [' ']) ++ '-' :: '-' :: '>' :: ' ' :: fmtTs b from by
    simp]
  rw [hmain]
  simp

theorem strip_timing (a b : Nat) :
    strip (fmtTs a ++ ' ' :: '-' :: '-' :: '>' :: ' ' :: fmtTs b) =
      fmtTs a ++ ' ' :: '-' :: '-' :: '>' :: ' ' :: fmtTs b := by
  have hsh : fmtTs a ++ ' ' :: '-' :: '-' :: '>' :: ' ' :: fmtTs b =
      (fmtTs a ++ [' ', '-', '-', '>', ' ']) ++ fmtTs b := by simp
  obtain ⟨c0, t0, hc0⟩ : ∃ c0 t0, fmtTs a = c0 :: t0 := by
    cases hf : fmtTs a with
    | nil => exact absurd hf (fmtTs_ne_nil a)
    | cons c0 t0 => exact ⟨c0, t0, rfl⟩
  have hmem : c0 ∈ fmtTs a := by rw [hc0]; simp
  unfold strip
  rw [lstrip_append_of_ne hc0 (fmtTs_mem hmem).1, hsh,
    rstrip_append_of (fmtTs_ne_nil b) (fun c hc => (fmtTs_mem hc).1), ← hsh]

theorem timing_ne_nil (a b : Nat) :
    fmtTs a ++ ' ' :: '-' :: '-' :: '>' :: ' ' :: fmtTs b ≠ [] := by
  simp

theorem strip_natDigits (n : Nat) : strip (natDigits n) = natDigits n :=
  strip_eq_self (fun c hc => by
    obtain ⟨k, rfl⟩ := natDigits_mem hc
    exact (digitChar_props k).2.1)

theorem isDigitsLine_natDigits (n : Nat) : isDigitsLine (natDigits n) = true := by
  unfold isDigitsLine
  rw [Bool.and_eq_true, List.all_eq_true]
  refine ⟨by simp [natDigits_ne_nil], fun c hc => ?_⟩
  obtain ⟨k, rfl⟩ := natDigits_mem (by simpa using hc)
  exact (digitChar_props k).1

theorem blockOf_filter {s : Subtitle} (hInv : ∀ l ∈ s.lines, strip l ≠ []) :
    (blockOf s).filter (fun l => decide (strip l ≠ [])) = blockOf s := by
  apply List.filter_eq_self.mpr
  intro x hx
  unfold blockOf at hx
  rcases List.mem_cons.mp hx with rfl | hx
  · simp [strip_natDigits, natDigits_ne_nil]
  rcases List.mem_cons.mp hx with rfl | hx
  · simp only [strip_timing, decide_eq_true_eq]
    exact timing_ne_nil _ _
  · simp [hInv x hx]

theorem parseSrtBlock_blockOf {s : Subtitle} (hInv : ∀ l ∈ s.lines, strip l ≠ []) :
    parseSrtBlock (blockOf s) = some (some (s.start_ms, s.end_ms, s.lines)) := by
  unfold parseSrtBlock
  rw [blockOf_filter hInv]
  unfold blockOf
  simp [strip_natDigits, isDigitsLine_natDigits, splitArrow_timing,
    parse_timestamp_srt_spec (strip_fmtTs_append_sp s.start_ms),
    strip_sp_fmtTs,
    pySplitWs_all_false (fmtTs_ne_nil s.end_ms) (fun c hc => (fmtTs_mem hc).1),
    parse_timestamp_srt_spec (strip_eq_self (fun c hc => (fmtTs_mem hc).1))]

theorem serialize_blocks {subs : List Subtitle}
    (hInv : ∀ s ∈ subs, ∀ l ∈ s.lines, strip l ≠ []) :
    pySplit ([] : Line) (serialize_srt subs) = subs.map blockOf ++ [[]] := by
  induction subs with
  | nil => rfl
  | cons s rest ih =>
    have hsc : serialize_srt (s :: rest) = blockOf s ++ ([] :: serialize_srt rest) := by
      show (serializeCue s :: rest.map serializeCue).flatten = _
      rw [List.flatten_cons]
      show (natDigits s.index :: _ :: (s.lines ++ [[]])) ++ _ = _
      unfold blockOf
      simp [serialize_srt]
    rw [hsc, pySplit_append_cons, ih (fun u hu => hInv u (by simp [hu]))]
    · simp
    · intro hm
      unfold blockOf at hm
      rcases List.mem_cons.mp hm with he | hm
      · exact natDigits_ne_nil s.index he.symm
      rcases List.mem_cons.mp hm with he | hm
      · exact timing_ne_nil s.start_ms s.end_ms he.symm
      · have := hInv s (by simp) [] hm
        exact this rfl

theorem renum_map_data (f : Subtitle → Nat × Nat × List Line)
    (hf : ∀ s n, f { s with index := n } = f s) :
    ∀ (n : Nat) (subs : List Subtitle), (renum n subs).map f = subs.map f := by
  intro n subs
  induction subs generalizing n with
  | nil => rfl
  | cons s rest ih =>
    show f { s with index := n + 1 } :: (renum (n + 1) rest).map f = f s :: rest.map f
    rw [hf s (n + 1), ih (n + 1)]

theorem srtGo_spec {subs : List Subtitle}
    (hInv : ∀ s ∈ subs, ∀ l ∈ s.lines, strip l ≠ []) :
    ∀ (n : Nat) (acc : List Subtitle),
      srtGo (subs.map blockOf ++ [[]]) n acc = some (acc.reverse ++ renum n subs) := by
  induction subs with
  | nil =>
    intro n acc
    show srtGo [[]] n acc = _
    rw [srtGo, show parseSrtBlock [] = some none from rfl]
    simp only []
    show srtGo [] n acc = _
    rw [srtGo]
    show some acc.reverse = _
    simp [renum]
  | cons s rest ih =>
    intro n acc
    show srtGo (blockOf s :: (rest.map blockOf ++ [[]])) n acc = _
    rw [srtGo, parseSrtBlock_blockOf (hInv s (by simp))]
    simp only []
    rw [ih (fun u hu => hInv u (by simp [hu])) (n + 1)]
    rw [Option.some_inj]
    show (Subtitle.mk (n + 1) s.start_ms s.end_ms s.lines :: acc).reverse
        ++ renum (n + 1) rest = acc.reverse ++ renum n (s :: rest)
    rw [List.reverse_cons, List.append_assoc]
    rfl

theorem parseSrtBlock_content {b : List Line} {st en : Nat} {content : List Line}
    (h : parseSrtBlock b = some (some (st, en, content))) :
    ∀ l ∈ content, strip l ≠ [] := by
  have hmem : ∀ x ∈ b.filter (fun l => decide (strip l ≠ [])), strip x ≠ [] := by
    intro x hx
    simpa using (List.mem_filter.mp hx).2
  unfold parseSrtBlock at h
  rcases hf : b.filter (fun l => decide (strip l ≠ [])) with _ | ⟨l0, _ | ⟨l1, rest⟩⟩ <;>
    rw [hf] at h hmem
  · simp at h
  · simp at h
  have hsub : content = rest ∨ content = l1 :: rest := by
    simp only [] at h
    by_cases hd : isDigitsLine (strip l0) = true
    · left
      rw [if_pos hd] at h
      simp only [] at h
      rcases hsp : splitArrow l1 with _ | ⟨x, _ | ⟨y, zs⟩⟩ <;> rw [hsp] at h
      · simp at h
      · simp at h
      cases zs with
      | nil =>
        simp only [] at h
        rcases hp1 : parse_timestamp_srt x with _ | st1 <;> rw [hp1] at h
        · simp at h
        simp only [] at h
        rcases hh : (pySplitWs (strip y)).head? with _ | t2h <;> rw [hh] at h
        · simp at h
        simp only [] at h
        rcases hp2 : parse_timestamp_srt t2h with _ | en1 <;> rw [hp2] at h
        · simp at h
        simp only [Option.some_inj] at h
        exact (congrArg (fun t => t.2.2) h).symm
      | cons z zs1 => simp at h
    · right
      rw [if_neg hd] at h
      simp only [] at h
      rcases hsp : splitArrow l0 with _ | ⟨x, _ | ⟨y, zs⟩⟩ <;> rw [hsp] at h
      · simp at h
      · simp at h
      cases zs with
      | nil =>
        simp only [] at h
        rcases hp1 : parse_timestamp_srt x with _ | st1 <;> rw [hp1] at h
        · simp at h
        simp only [] at h
        rcases hh : (pySplitWs (strip y)).head? with _ | t2h <;> rw [hh] at h
        · simp at h
        simp only [] at h
        rcases hp2 : parse_timestamp_srt t2h with _ | en1 <;> rw [hp2] at h
        · simp at h
        simp only [Option.some_inj] at h
        exact (congrArg (fun t => t.2.2) h).symm
      | cons z zs1 => simp at h
  intro l hl
  rcases hsub with rfl | rfl
  · exact hmem l (by simp [hl])
  · exact hmem l (by simp [List.mem_cons.mp hl])

theorem srtGo_inv {P : Subtitle → Prop}
    (hP : ∀ idx st en content, (∀ l ∈ content, strip l ≠ []) →
      P { index := idx, start_ms := st, end_ms := en, lines := content }) :
    ∀ (blocks : List (List Line)) (n : Nat) (acc subs : List Subtitle),
      srtGo blocks n acc = some subs → (∀ s ∈ acc, P s) → ∀ s ∈ subs, P s := by
  intro blocks
  induction blocks with
  | nil =>
    intro n acc subs h hacc s hs
    rw [srtGo, Option.some_inj] at h
    subst h
    exact hacc s (by simpa using hs)
  | cons b bs ih =>
    intro n acc subs h hacc s hs
    rw [srtGo] at h
    rcases hb : parseSrtBlock b with _ | ⟨_ | ⟨st, en, content⟩⟩ <;> rw [hb] at h
    · simp at h
    · exact ih n acc subs h hacc s hs
    · refine ih (n + 1) _ subs h ?_ s hs
      intro u hu
      rcases List.mem_cons.mp hu with rfl | hu
      · exact hP _ _ _ _ (parseSrtBlock_content hb)
      · exact hacc u hu

theorem parse_srt_inv {input : List Line} {subs : List Subtitle}
    (h : parse_srt input = some subs) :
    ∀ s ∈ subs, ∀ l ∈ s.lines, strip l ≠ [] := by
  have := srtGo_inv (P := fun s => ∀ l ∈ s.lines, strip l ≠ [])
    (fun idx st en content hc => hc) (pySplit ([] : Line) input) 0 [] subs h
    (by simp)
  exact this

/-- Claim C7: serializing any document produced by the SRT parser and
re-parsing the result reproduces every cue's `start_ms`, `end_ms` and
`lines` exactly (the indices are renumbered sequentially). -/
theorem srt_round_trip (input : List Line) (subs : List Subtitle)
    (h : parse_srt input = some subs) :
    ∃ subs2, parse_srt (serialize_srt subs) = some subs2 ∧
      subs2.map (fun s => (s.start_ms, s.end_ms, s.lines)) =
        subs.map (fun s => (s.start_ms, s.end_ms, s.lines)) := by
  have hinv := parse_srt_inv h
  refine ⟨renum 0 subs, ?_, ?_⟩
  · unfold parse_srt
    rw [serialize_blocks hinv, srtGo_spec hinv 0 []]
    rfl
  · exact renum_map_data (fun s => (s.start_ms, s.end_ms, s.lines)) (fun s n => rfl) 0 subs

/-- Witness for `srt_round_trip` on a concrete one-cue SRT file. -/
theorem srt_round_trip_witness :
    ∃ subs2, parse_srt (serialize_srt [demoCue]) = some subs2 ∧
      subs2.map (fun s => (s.start_ms, s.end_ms, s.lines)) =
        [demoCue].map (fun s => (s.start_ms, s.end_ms, s.lines)) :=
  srt_round_trip demoSrtLines [demoCue] (by decide)

end QcEngine
